import Mathlib

/-!
Verification of the retrieval-and-synthesis core of the `ragops_cours` backend
(`backend/app/services/{chunking,embeddings,ingestion,rag_service}.py` and the
small utilities in `backend/app/utils/{cache,hashing}.py`).

The Python code is shallowly embedded:

* Python `str` values that are sliced and scanned character by character
  (the chunker input) are modelled as `List Char`; strings that only flow
  around as opaque values stay `String`.
* JSON values (everything Redis stores, every Meilisearch record, every
  embedding-provider response item) are modelled by the inductive `JVal`.
* Python dicts are association lists `List (String × JVal)`; dict literals
  with `**` unpacking are built key by key with later writes overwriting
  earlier ones, exactly as Python evaluates a dict display.
* Remote calls (the embedding provider, the Meilisearch client, the LLM) are
  oracle functions supplied as arguments; an exception raised by
  `httpx`/Meilisearch is an `Except.error` that propagates unless the Python
  code wraps the call in `try`/`except`, in which case the embedding matches
  the handler.
* Redis is an association list of key/value pairs; `setex` prepends
  (last-writer-wins) and `get` takes the most recent binding.  Expiry is not
  modelled; all reads happen inside the written TTL.
* `while` loops are embedded with an explicit fuel parameter; `none` means
  the loop has not finished within the given number of iterations, so
  `∀ fuel, ... = none` states non-termination of the source loop.
-/

/-- JSON values, as decoded by `json.loads` in `app/utils/cache.py` and as
returned by `response.json()` from the embedding and LLM providers. -/
inductive JVal where
  | s (v : String)
  | n (v : Int)
  | b (v : Bool)
  | null
  | arr (elems : List JVal)
  | obj (fields : List (String × JVal))

mutual

/-- Boolean equality on `JVal` (deriving `DecidableEq` is unavailable for this
nested inductive, so the instance is built from `beq`). -/
def JVal.beq : JVal → JVal → Bool
  | .s a, .s c => a == c
  | .n a, .n c => a == c
  | .b a, .b c => a == c
  | .null, .null => true
  | .arr a, .arr c => JVal.beqList a c
  | .obj a, .obj c => JVal.beqObj a c
  | _, _ => false

/-- Pointwise `JVal.beq` on lists. -/
def JVal.beqList : List JVal → List JVal → Bool
  | [], [] => true
  | x :: xs, y :: ys => JVal.beq x y && JVal.beqList xs ys
  | _, _ => false

/-- Pointwise `JVal.beq` on association lists. -/
def JVal.beqObj : List (String × JVal) → List (String × JVal) → Bool
  | [], [] => true
  | (k1, v1) :: xs, (k2, v2) :: ys => k1 == k2 && JVal.beq v1 v2 && JVal.beqObj xs ys
  | _, _ => false

end

/-- A Python dict holding JSON data: an association list whose construction
keeps keys unique (as Python dicts do). -/
abbrev Dict := List (String × JVal)

/-- `d.get(k)` / `d[k]`-style lookup: the first binding of `k`.  The dicts this
development builds never carry duplicate keys, so first = only binding. -/
def dget (d : Dict) (k : String) : Option JVal :=
  (d.find? (fun p => p.1 = k)).map (fun p => p.2)

/-- `d[k] = v` on a Python dict: overwrite the binding of `k` in place if the
key exists (keeping its position, as CPython does), otherwise append the new
binding at the end.  Python dicts carry each key at most once, so replacing
the first binding replaces the binding. -/
def dinsert (d : Dict) (k : String) (v : JVal) : Dict :=
  match d with
  | [] => [(k, v)]
  | p :: rest => if p.1 = k then (k, v) :: rest else p :: dinsert rest k v

/-- A Python dict display `{k₁: v₁, ..., **m, ...}`: bindings are inserted
left to right, later occurrences of a key overwriting earlier ones. -/
def dictLit (pairs : List (String × JVal)) : Dict :=
  pairs.foldl (fun d p => dinsert d p.1 p.2) []

/-- The binding a dict display gives to `k`: the value of the LAST pair of the
display carrying the key (later writes win).  Used to state what `dictLit`
produces. -/
def lastLookup (pairs : List (String × JVal)) (k : String) : Option JVal :=
  (pairs.reverse.find? (fun p => p.1 = k)).map (fun p => p.2)

/-- Python truthiness (`if x:`) of a JSON value: empty containers, empty
strings, zero, `False` and `None` are falsy. -/
def jvTruthy : JVal → Bool
  | .s t => t ≠ ""
  | .n i => i ≠ 0
  | .b x => x
  | .null => false
  | .arr l => !l.isEmpty
  | .obj d => !d.isEmpty

/-- `v.get(k)` where `v` is a decoded JSON value: defined on objects only
(Python raises `AttributeError` on anything else; the executions settled here
never reach that case). -/
def jget (v : JVal) (k : String) : Option JVal :=
  match v with
  | .obj d => dget d k
  | _ => none

/-- Rendering used where the source interpolates a value into an f-string.
Scalars render as Python renders them; the pipelines proved about only ever
interpolate strings and ints, so container rendering is a placeholder. -/
def jvStr : JVal → String
  | .s t => t
  | .n i => toString i
  | .b true => "True"
  | .b false => "False"
  | .null => "None"
  | .arr _ => "[...]"
  | .obj _ => "{...}"

/-! ### Python string primitives used by `chunking.py` -/

/-- Normalize one bound of a Python slice `s[a:b]` for a string of length `n`:
negative indices count from the end and both bounds clamp into `[0, n]`. -/
def pySliceIdx (n : Nat) (i : Int) : Nat :=
  if i < 0 then ((n : Int) + i).toNat else min i.toNat n

/-- Python slice `s[a:b]` on a string modelled as a character list. -/
def pySlice (l : List Char) (a b : Int) : List Char :=
  (l.take (pySliceIdx l.length b)).drop (pySliceIdx l.length a)

/-- The whitespace set stripped by Python `str.strip()`. -/
def isPySpace (c : Char) : Bool :=
  c = ' ' || c = '\t' || c = '\n' || c = '\r' || c = Char.ofNat 11 || c = Char.ofNat 12

/-- Python `str.strip()`. -/
def pyStrip (l : List Char) : List Char :=
  ((l.dropWhile isPySpace).reverse.dropWhile isPySpace).reverse

/-- Python `str.rfind(c)`: index of the last occurrence of `c`, `-1` when
absent. -/
def pyRfind : List Char → Char → Int
  | [], _ => -1
  | ch :: rest, c =>
    let r := pyRfind rest c
    if r ≥ 0 then r + 1 else if ch = c then 0 else -1

/-! ### `chunking.py` — `chunk_text`

The `while` loop of `chunk_text` (lines 10–23) is embedded as `chunkLoop`
with a fuel parameter (`none` = the loop has not terminated within `fuel`
iterations).  The loop body additionally records, for every examined window,
the normalized span `[start, end)` the slice `text[start:end]` covers,
alongside the stripped chunk; the source appends the chunk only when it is
nonempty, which `chunk_text` recovers by filtering — the produced chunk list
is identical. -/

/-- Lines 11–16 of `chunking.py`: the end of the current window, shrunk to the
last `.`/`!`/`?` within the trailing 100 characters when one exists. -/
def chunkEnd (text : List Char) (chunk_size : Int) (start : Int) : Int :=
  let e := start + chunk_size
  if e < (text.length : Int) then
    let base := max start (e - 100)
    let last_part := pySlice text base e
    let sentence_end :=
      max (pyRfind last_part '.') (max (pyRfind last_part '!') (pyRfind last_part '?'))
    if sentence_end > -1 then base + sentence_end + 1 else e
  else e

/-- The `while` loop of `chunk_text`, with fuel.  Each iteration records
`((normalized start, normalized end), stripped chunk)`; the stripped chunk is
kept in the output only when nonempty (`if chunk:` in the source). -/
def chunkLoop (text : List Char) (chunk_size overlap : Int) :
    Nat → Int → List ((Nat × Nat) × List Char) → Option (List ((Nat × Nat) × List Char))
  | 0, _, _ => none
  | fuel + 1, start, acc =>
    if start < (text.length : Int) then
      let e := chunkEnd text chunk_size start
      let chunk := pyStrip (pySlice text start e)
      let acc' := acc ++ [((pySliceIdx text.length start, pySliceIdx text.length e), chunk)]
      let start' := e - overlap
      if start' ≥ (text.length : Int) then some acc'
      else chunkLoop text chunk_size overlap fuel start' acc'
    else some acc

/-- `chunk_text(text, chunk_size, overlap)`: the produced chunks, or `none`
when the loop does not finish within `fuel` iterations. -/
def chunk_text (text : List Char) (chunk_size overlap : Int) (fuel : Nat) :
    Option (List (List Char)) :=
  if (text.length : Int) ≤ chunk_size then some [text]
  else
    (chunkLoop text chunk_size overlap fuel 0 []).map
      (fun ws => ws.filterMap (fun p => if p.2 = [] then none else some p.2))

/-- The windows `chunk_text` examines, each with its stripped chunk (empty =
discarded from the output).  For a text short enough to be returned whole the
single window is the whole text. -/
def chunkWindows (text : List Char) (chunk_size overlap : Int) (fuel : Nat) :
    Option (List ((Nat × Nat) × List Char)) :=
  if (text.length : Int) ≤ chunk_size then some [((0, text.length), text)]
  else chunkLoop text chunk_size overlap fuel 0 []

/-! ### `utils/hashing.py` and `utils/cache.py` -/

/-- `md5_hash` computes a deterministic digest used only to build cache keys.
Modelled as the identity injection `text ↦ text`: the development relies only
on the digest being a deterministic function of the text (hash collisions are
not modelled). -/
def md5_hash (text : String) : String := text

/-- The Redis keyspace: most recent binding first (a `setex` overwrite
prepends, `get` reads the most recent binding — last-writer-wins, as in
Redis).  Expiry is not modelled: every read happens within the TTL of the
write it observes. -/
abbrev Cache := List (String × JVal)

/-- `get_json(key)`: the most recently stored JSON value under `key`.  The
source decodes the stored bytes; here values are stored decoded, so the
`json.loads` failure branch is unreachable. -/
def get_json (cache : Cache) (key : String) : Option JVal :=
  (cache.find? (fun p => p.1 = key)).map (fun p => p.2)

/-- `set_json(key, value, ttl_seconds)`: store `value` under `key`.  The TTL
argument is kept for fidelity but unused (reads are within the TTL). -/
def set_json (cache : Cache) (key : String) (value : JVal) (_ttl_seconds : Int) : Cache :=
  (key, value) :: cache

/-! ### `services/embeddings.py` -/

/-- Outcome of the `POST /v1/embeddings` round trip issued by
`_request_embeddings`: a 200 response with its decoded `data` list, a non-200
response, or a transport-level `httpx` exception. -/
inductive RemoteResp where
  | ok (data : List JVal)
  | httpError
  | transportErr

/-- An embedding-provider backend: one response per submitted batch. -/
abbrev EmbOracle := List String → RemoteResp

/-- `_request_embeddings(texts)`: `None` on a non-200 status (after logging),
the decoded `data` list on success; a transport exception propagates
(`Except.error`). -/
def request_embeddings (oracle : EmbOracle) (texts : List String) :
    Except Unit (Option (List JVal)) :=
  match oracle texts with
  | .ok data => .ok (some data)
  | .httpError => .ok none
  | .transportErr => .error ()

/-- The embedding cache key for a text: `f"embedding:{md5_hash(t)}"`. -/
def embKey (t : String) : String := "embedding:" ++ md5_hash t

/-- Phase 1 of `generate_embeddings` (lines 31–38): one pass over `texts`
building `results` (cached vector or `None` per position), the list
`uncached` of cache-miss texts and their positions `idxs`. -/
def scanCacheGo (cache : Cache) : List String → Nat →
    List (Option JVal) × List String × List Nat
  | [], _ => ([], [], [])
  | t :: rest, i =>
    let (rs, us, is) := scanCacheGo cache rest (i + 1)
    match get_json cache (embKey t) with
    | some v => (some v :: rs, us, is)
    | none => (none :: rs, t :: us, i :: is)

/-- Lines 48–50: unwrap one response item — `emb.get("embedding", emb)`, then
a `{"default": ...}` wrapper if present.  (A non-dict item would raise
`AttributeError` in Python; the executions settled here never produce one.) -/
def unwrapVec (emb : JVal) : JVal :=
  let vec := match emb with
    | .obj d => (dget d "embedding").getD emb
    | _ => emb
  match vec with
  | .obj d => (dget d "default").getD vec
  | _ => vec

/-- The `for i, emb in zip(idxs, data)` loop (lines 47–52): place each
unwrapped vector at its position in `results` and cache it for an hour.
`zip` stops at the shorter list.  (`texts.getD i ""` is `texts[i]`; the
positions in `idxs` are valid indices by construction.) -/
def applyBatch (texts : List String) :
    List Nat → List JVal → List (Option JVal) → Cache → List (Option JVal) × Cache
  | [], _, rs, c => (rs, c)
  | _, [], rs, c => (rs, c)
  | i :: is, emb :: data, rs, c =>
    let vec := unwrapVec emb
    applyBatch texts is data (rs.set i (some vec))
      (set_json c (embKey (texts.getD i "")) vec 3600)

/-- `generate_embeddings(texts)`: cache scan, one batched remote call for the
misses, cache write-back, and the `None`-filtered result.  The third result
component logs the batches sent to the remote backend (`[]` or the single
`uncached` batch).  A non-200 response returns only the cache hits
("fail closed", line 44–45); a transport exception propagates. -/
def generate_embeddings (oracle : EmbOracle) (cache : Cache) (texts : List String) :
    Except Unit (List JVal × Cache × List (List String)) :=
  let (results, uncached, idxs) := scanCacheGo cache texts 0
  if uncached.isEmpty then .ok (results.filterMap id, cache, [])
  else
    match request_embeddings oracle uncached with
    | .error e => .error e
    | .ok none => .ok (results.filterMap id, cache, [uncached])
    | .ok (some data) =>
      let (results', cache') := applyBatch texts idxs data results cache
      .ok (results'.filterMap id, cache', [uncached])

/-! ### `services/rag_service.py` -/

/-- `h.get("document_id", "unknown")` — the per-document bucket
`_select_chunks` counts a hit under: its `document_id` value, or the shared
string `"unknown"` when the key is absent. -/
def bucketOf (h : Dict) : JVal :=
  (dget h "document_id").getD (.s "unknown")

/-- Lookup in the `per_doc` counter dict, which is keyed by the (arbitrary
JSON) bucket values. -/
def pdGet (pd : List (JVal × Nat)) (k : JVal) : Option Nat :=
  (pd.find? (fun p => JVal.beq p.1 k)).map (fun p => p.2)

/-- `per_doc[k] = v`: overwrite the binding in place when the key exists
(Python dict keys are unique, so replacing the first binding replaces the
binding), otherwise append. -/
def pdSet (pd : List (JVal × Nat)) (k : JVal) (v : Nat) : List (JVal × Nat) :=
  match pd with
  | [] => [(k, v)]
  | p :: rest => if JVal.beq p.1 k then (k, v) :: rest else p :: pdSet rest k v

/-- The loop of `_select_chunks` (lines 13–20): walk the hits in order, count
per bucket, keep a hit only while its bucket count is below 2, stop as soon
as `k` hits are selected. -/
def selectGo (k : Int) : List Dict → List Dict → List (JVal × Nat) → List Dict
  | [], selected, _ => selected
  | h :: rest, selected, perDoc =>
    let docId := bucketOf h
    let cnt := (pdGet perDoc docId).getD 0
    let (selected', perDoc') :=
      if cnt < 2 then (selected ++ [h], pdSet perDoc docId (cnt + 1))
      else (selected, pdSet perDoc docId cnt)
    if (selected'.length : Int) ≥ k then selected'
    else selectGo k rest selected' perDoc'

/-- `_select_chunks(hits, k)`. -/
def select_chunks (hits : List Dict) (k : Int) : List Dict :=
  selectGo k hits [] []

/-- Outcome of the LLM chat-completion round trip inside
`generate_rag_answer`: a 200 response with the answer text, a non-200
response, or a raised exception. -/
inductive LLMResp where
  | ok (content : String)
  | httpFail
  | exn

/-- An LLM backend: one response per (query, context, search_method) prompt. -/
abbrev LLMOracle := String → String → String → LLMResp

/-- `generate_rag_answer(query, context, search_method)`
(`services/llm_service.py`, lines 22–42): the model answer on success, a
canned string on a non-200 response, another canned string when the call
raises.  Never raises. -/
def generate_rag_answer (oracle : LLMOracle) (query context search_method : String) : String :=
  match oracle query context search_method with
  | .ok c => c
  | .httpFail => "I found relevant chunks but could not generate an answer."
  | .exn => "I found chunks but could not generate an answer due to an error."

/-- A Meilisearch query against the chunks index as `rag_search` issues it:
lexical-only, or hybrid with the query vector, `semanticRatio` 0.8 (recorded
as 80/100) and embedder `"default"`.  `attributesToRetrieve=["*"]` is the
same constant on every call and is left implicit. -/
inductive SearchQ where
  | textQ (q : String) (limit : Int)
  | hybridQ (q : String) (vector : JVal) (semanticRatioPct : Nat) (embedder : String) (limit : Int)

/-- The slice of a Meilisearch search response that `rag_search` reads
(`res.get("hits", [])`). -/
structure SearchRes where
  hits : List Dict

/-- A document store: one response per issued query; `Except.error` is a
store-side exception raised by the client. -/
abbrev StoreOracle := SearchQ → Except Unit SearchRes

/-- Everything `rag_search` can observe: the Redis state and the three remote
backends. -/
structure World where
  cache : Cache
  embedOracle : EmbOracle
  storeOracle : StoreOracle
  llmOracle : LLMOracle

/-- The `rag_search` cache key:
`f"rag:{md5_hash(f'{query}:{k}:{use_embeddings}')}"` (Python renders the
bool as `True`/`False`). -/
def ragKey (query : String) (k : Int) (use_embeddings : Bool) : String :=
  "rag:" ++ md5_hash (query ++ ":" ++ toString k ++ ":" ++ (if use_embeddings then "True" else "False"))

/-- One result dict of `rag_search` (the literal at lines 60–66, 90–97 and
104–110; the five keys are always these). -/
def ragResultDict (answer : String) (chunks : List Dict) (total : Int) (method : String) : Dict :=
  dictLit [("answer", .s answer), ("chunks", .arr (chunks.map .obj)),
           ("total_chunks_found", .n total), ("cached", .b false),
           ("search_method", .s method)]

/-- The `for i, h in enumerate(selected)` loop of `rag_search` (lines 73–88):
build the prompt context parts and the display chunk dicts, skipping hits
with falsy content.  (Slicing `content[:300]` is only defined when the
content is a string; non-string content would raise `TypeError` in Python
and is left unchanged here — the records this pipeline stores carry string
content.) -/
def buildChunks : List Dict → Nat → List String × List Dict
  | [], _ => ([], [])
  | h :: rest, i =>
    let cv := (dget h "content").getD .null
    let content := if jvTruthy cv then cv else (dget h "text").getD (.s "")
    let title := (dget h "title").getD
      ((jget ((dget h "metadata").getD (.obj [])) "title").getD (.s ("Chunk " ++ toString (i + 1))))
    let docId := (dget h "document_id").getD (.s ("doc-" ++ toString i))
    let idx := (dget h "chunk_index").getD (.n (i : Int))
    if jvTruthy content then
      let ctxPart := "Document: " ++ jvStr title ++ " (Chunk " ++ jvStr idx ++ ")\nContent: "
        ++ jvStr content ++ "\n"
      let trunc := match content with
        | .s t => if t.length > 300 then JVal.s (t.take 300 ++ "...") else JVal.s t
        | v => v
      let chunkRec := dictLit
        [("id", (dget h "id").getD (.s ("chunk-" ++ toString i))),
         ("document_id", docId), ("chunk_index", idx), ("content", trunc),
         ("metadata", .obj (h.filter (fun p => ¬ (p.1 = "text" ∨ p.1 = "content" ∨ p.1 = "_vectors"))))]
      let (cps, chs) := buildChunks rest (i + 1)
      (ctxPart :: cps, chunkRec :: chs)
    else buildChunks rest (i + 1)

/-- The retrieval phase of `rag_search` (lines 31–56): lexical-only when
`use_embeddings` is false; otherwise embed the query and run the hybrid
query, falling back to a lexical query when the embedding list is empty or
when the embedding/hybrid call raises (the `try`/`except`).  Returns the
store response, the `search_method` string and the Redis state after the
embedding call.  A failing lexical query raises to the caller, matching the
source (the oracle is deterministic, so the re-issued lexical query inside
the handler fails identically). -/
def ragAttempt (w : World) (q : String) (k : Int) (use_embeddings : Bool) :
    Except Unit (SearchRes × String × Cache) :=
  if use_embeddings then
    match generate_embeddings w.embedOracle w.cache [q] with
    | .error _ => (w.storeOracle (.textQ q (k * 2))).map (fun r => (r, "text", w.cache))
    | .ok (embs, c1, _) =>
      match embs with
      | [] => (w.storeOracle (.textQ q (k * 2))).map (fun r => (r, "text", c1))
      | qv :: _ =>
        match w.storeOracle (.hybridQ q qv 80 "default" (k * 2)) with
        | .ok r => .ok (r, "hybrid", c1)
        | .error _ => (w.storeOracle (.textQ q (k * 2))).map (fun r => (r, "text", c1))
  else (w.storeOracle (.textQ q (k * 2))).map (fun r => (r, "text", w.cache))

/-- The cache-miss path of `rag_search` (lines 31–112): retrieve, select,
build context, synthesize and cache, with the two canned early results for
"no hits" and "no readable content". -/
def ragSearchFresh (w : World) (q : String) (k : Int) (use_embeddings : Bool) (key : String) :
    Except Unit (Dict × World) :=
  match ragAttempt w q k use_embeddings with
  | .error e => .error e
  | .ok (res, method, c1) =>
    let hits := res.hits
    if hits.isEmpty then
      let result := ragResultDict "I couldn't find any relevant chunks to answer your question." [] 0 method
      let c2 := set_json c1 key (.obj (dinsert result "cached" (.b false))) 600
      .ok (result, { w with cache := c2 })
    else
      let selected := select_chunks hits k
      let (ctxParts, chunks) := buildChunks selected 0
      if chunks.isEmpty then
        let result := ragResultDict "I found chunks but couldn't extract readable content from them."
          [] (hits.length : Int) method
        let c2 := set_json c1 key (.obj (dinsert result "cached" (.b false))) 600
        .ok (result, { w with cache := c2 })
      else
        let context := String.intercalate "\n" ctxParts
        let answer := generate_rag_answer w.llmOracle q context method
        let result := ragResultDict answer chunks (hits.length : Int) method
        let c2 := set_json c1 key (.obj (dinsert result "cached" (.b false))) 600
        .ok (result, { w with cache := c2 })

/-- `rag_search(query, k, use_embeddings)` (lines 23–112).  A truthy cached
payload is returned with `cached` set to `True`; `cached["cached"] = True` on
a truthy non-dict payload would raise `TypeError` in Python (`Except.error`);
otherwise the fresh path runs. -/
def rag_search (w : World) (q : String) (k : Int) (use_embeddings : Bool) :
    Except Unit (Dict × World) :=
  let key := ragKey q k use_embeddings
  match get_json w.cache key with
  | some (.obj c) =>
    if c.isEmpty then ragSearchFresh w q k use_embeddings key
    else .ok (dinsert c "cached" (.b true), w)
  | some v => if jvTruthy v then .error () else ragSearchFresh w q k use_embeddings key
  | none => ragSearchFresh w q k use_embeddings key

/-! ### `services/ingestion.py` -/

/-- A caller-supplied document (`models/documents.py`): id, text, metadata. -/
structure DocIn where
  id : String
  text : List Char
  metadata : List (String × JVal)

/-- `chunk_text(doc.text)` with the library defaults `chunk_size=512,
overlap=50`.  With these parameters every loop iteration advances `start` by
at least 363, so fuel `len(text) + 1` always suffices; the theorem
`chunk_text_default_total` below proves the `.getD []` default unreachable. -/
def chunkTextD (t : List Char) : List (List Char) :=
  (chunk_text t 512 50 (t.length + 1)).getD []

/-- The explicit chunk-specific fields of the chunk-record dict display
(`ingestion.py` lines 36–41), written before `**doc.metadata`. -/
def explicitChunkFields (docId : String) (i : Nat) (content : String) (total : Nat) :
    List (String × JVal) :=
  [("id", .s (docId ++ "-chunk-" ++ toString i)), ("text", .s content),
   ("content", .s content), ("document_id", .s docId),
   ("chunk_index", .n (i : Int)), ("total_chunks", .n (total : Int))]

/-- The `proc_chunk` dict display (lines 35–44): explicit chunk fields, then
`**doc.metadata`, then `indexed_at` — later keys overwrite earlier ones.
`ts` stands for `datetime.now().isoformat()`. -/
def procChunk (docId : String) (meta : List (String × JVal)) (i : Nat) (content : String)
    (total : Nat) (ts : String) : Dict :=
  dictLit (explicitChunkFields docId i content total ++ meta ++ [("indexed_at", .s ts)])

/-- The `proc_doc` dict display (lines 21–28) followed by the
`proc_doc["chunk_count"] = len(chunks)` update (line 32). -/
def procDoc (doc : DocIn) (ts : String) (chunkCount : Nat) : Dict :=
  dinsert
    (dictLit ([("id", .s doc.id), ("text", .s (String.mk doc.text)),
               ("content", .s (String.mk doc.text))] ++ doc.metadata
              ++ [("indexed_at", .s ts), ("chunk_count", .n 0)]))
    "chunk_count" (.n (chunkCount : Int))

/-- The accumulation loop of `ingest_documents` (lines 19–48): per document
the processed document record, the processed chunk records in order, and the
chunk texts accumulated across the whole call. -/
def collectDocs (ts : String) : List DocIn → List Dict × List Dict × List String
  | [] => ([], [], [])
  | doc :: rest =>
    let chunks := chunkTextD doc.text
    let pdoc := procDoc doc ts chunks.length
    let pchunks := chunks.enum.map
      (fun p => procChunk doc.id doc.metadata p.1 (String.mk p.2) chunks.length ts)
    let (pds, pcs, ats) := collectDocs ts rest
    (pdoc :: pds, pchunks ++ pcs, chunks.map (fun c => String.mk c) ++ ats)

/-- What `ingest_documents` returns: the counts of its result dict, plus the
two submitted batches standing in for the opaque Meilisearch task handles
(`chunk_task` is `None` when no chunks were produced, line 64). -/
structure IngestResult where
  indexed : Nat
  chunks_created : Nat
  embeddings_generated : Nat
  document_task : List Dict
  chunk_task : Option (List Dict)

/-- The chunk batch `ingest_documents` submitted (empty when `chunk_task`
is `None`). -/
def ingestChunkBatch (r : IngestResult) : List Dict :=
  r.chunk_task.getD []

/-- `ingest_documents(documents)` (lines 11–72): build document and chunk
records, call `generate_embeddings` once on all accumulated chunk texts,
attach one vector per chunk in order when the counts match and a null vector
to every chunk otherwise, submit both batches, return the counts.  A
transport exception from the embedding call propagates (the source has no
handler); the threaded `Cache` is Redis. -/
def ingest_documents (oracle : EmbOracle) (cache : Cache) (ts : String) (docs : List DocIn) :
    Except Unit (IngestResult × Cache) :=
  let (pd, pc, ats) := collectDocs ts docs
  match generate_embeddings oracle cache ats with
  | .error e => .error e
  | .ok (embeddings, c1, _) =>
    let pc' :=
      if embeddings.length = ats.length then
        pc.zipWith (fun ch v => dinsert ch "_vectors" (.obj [("default", v)])) embeddings
      else
        pc.map (fun ch => dinsert ch "_vectors" (.obj [("default", .null)]))
    .ok ({ indexed := pd.length, chunks_created := pc.length,
           embeddings_generated := embeddings.length,
           document_task := pd,
           chunk_task := if pc'.isEmpty then none else some pc' }, c1)

/-! ### Concrete inputs used by the witnesses and counterexamples below -/

/-- A text on which the `chunk_text` loop never advances: `"aaa"` with
`chunk_size = 2`, `overlap = 2` gives `start = end - overlap = start`
forever. -/
def nonTermText : List Char := ['a', 'a', 'a']

/-- 101 letters, 101 spaces, two letters: with `chunk_size = 101`,
`overlap = 0` the middle window strips to empty and is discarded, so no
produced chunk covers indices 101–201. -/
def gapText : List Char :=
  List.replicate 101 'a' ++ List.replicate 101 ' ' ++ ['b', 'b']

/-- The windows `chunk_text gapText 101 0` examines (computed; asserted by
`C4_counterexample`). -/
def gapWindows : List ((Nat × Nat) × List Char) :=
  [((0, 101), List.replicate 101 'a'), ((101, 202), []), ((202, 204), ['b', 'b'])]

/-- A document whose metadata reuses the reserved key `"id"`. -/
def evilDoc : DocIn := ⟨"d1", ['h', 'i'], [("id", .s "evil")]⟩

/-- An embedding backend that always succeeds with one vector per text. -/
def okOracle : EmbOracle := fun ts => .ok (ts.map (fun _ => JVal.arr [JVal.n 1]))

/-- An embedding backend that always answers with a non-200 status. -/
def httpErrOracle : EmbOracle := fun _ => .httpError

/-- An embedding backend whose round trip always raises. -/
def transportErrOracle : EmbOracle := fun _ => .transportErr

/-- A cache holding an embedding for `"b"` only. -/
def cacheWithB : Cache := [("embedding:b", JVal.arr [JVal.n 7])]

/-- A hit carrying only a `document_id`. -/
def soloHit : Dict := [("document_id", JVal.s "d1")]

/-- An empty document store: every query succeeds with zero hits. -/
def emptyStore : StoreOracle := fun _ => .ok ⟨[]⟩

/-- A store with one fixed chunk hit for every query. -/
def oneHitStore : StoreOracle := fun _ =>
  .ok ⟨[[("id", JVal.s "c1"), ("document_id", JVal.s "d1"), ("content", JVal.s "hello")]]⟩

/-- An LLM backend that always answers `"ans"`. -/
def okLLM : LLMOracle := fun _ _ _ => .ok "ans"

/-- World for the `C6` witness: empty cache, empty store. -/
def emptyWorld : World := ⟨[], httpErrOracle, emptyStore, okLLM⟩

/-- World for the `C7` witness: empty cache, failing embedding backend,
working lexical store. -/
def failEmbWorld : World := ⟨[], transportErrOracle, oneHitStore, okLLM⟩

/-! ## Theorems -/

mutual

/-- `JVal.beq` decides equality. -/
theorem JVal.beq_iff : ∀ a c : JVal, JVal.beq a c = true ↔ a = c
  | .s _, .s _ => by simp [JVal.beq]
  | .n _, .n _ => by simp [JVal.beq]
  | .b _, .b _ => by simp [JVal.beq]
  | .null, .null => by simp [JVal.beq]
  | .arr a, .arr c => by rw [show JVal.beq (.arr a) (.arr c) = JVal.beqList a c from rfl]
                         rw [JVal.beqList_iff a c]; simp
  | .obj a, .obj c => by rw [show JVal.beq (.obj a) (.obj c) = JVal.beqObj a c from rfl]
                         rw [JVal.beqObj_iff a c]; simp
  | .s _, .n _ => by simp [JVal.beq]
  | .s _, .b _ => by simp [JVal.beq]
  | .s _, .null => by simp [JVal.beq]
  | .s _, .arr _ => by simp [JVal.beq]
  | .s _, .obj _ => by simp [JVal.beq]
  | .n _, .s _ => by simp [JVal.beq]
  | .n _, .b _ => by simp [JVal.beq]
  | .n _, .null => by simp [JVal.beq]
  | .n _, .arr _ => by simp [JVal.beq]
  | .n _, .obj _ => by simp [JVal.beq]
  | .b _, .s _ => by simp [JVal.beq]
  | .b _, .n _ => by simp [JVal.beq]
  | .b _, .null => by simp [JVal.beq]
  | .b _, .arr _ => by simp [JVal.beq]
  | .b _, .obj _ => by simp [JVal.beq]
  | .null, .s _ => by simp [JVal.beq]
  | .null, .n _ => by simp [JVal.beq]
  | .null, .b _ => by simp [JVal.beq]
  | .null, .arr _ => by simp [JVal.beq]
  | .null, .obj _ => by simp [JVal.beq]
  | .arr _, .s _ => by simp [JVal.beq]
  | .arr _, .n _ => by simp [JVal.beq]
  | .arr _, .b _ => by simp [JVal.beq]
  | .arr _, .null => by simp [JVal.beq]
  | .arr _, .obj _ => by simp [JVal.beq]
  | .obj _, .s _ => by simp [JVal.beq]
  | .obj _, .n _ => by simp [JVal.beq]
  | .obj _, .b _ => by simp [JVal.beq]
  | .obj _, .null => by simp [JVal.beq]
  | .obj _, .arr _ => by simp [JVal.beq]

/-- `JVal.beqList` decides equality of lists. -/
theorem JVal.beqList_iff : ∀ xs ys : List JVal, JVal.beqList xs ys = true ↔ xs = ys
  | [], [] => by simp [JVal.beqList]
  | x :: xs, y :: ys => by
      rw [show JVal.beqList (x :: xs) (y :: ys) = (JVal.beq x y && JVal.beqList xs ys) from rfl]
      rw [Bool.and_eq_true, JVal.beq_iff x y, JVal.beqList_iff xs ys]; simp
  | [], _ :: _ => by simp [JVal.beqList]
  | _ :: _, [] => by simp [JVal.beqList]

/-- `JVal.beqObj` decides equality of association lists. -/
theorem JVal.beqObj_iff : ∀ xs ys : List (String × JVal), JVal.beqObj xs ys = true ↔ xs = ys
  | [], [] => by simp [JVal.beqObj]
  | (k1, v1) :: xs, (k2, v2) :: ys => by
      rw [show JVal.beqObj ((k1, v1) :: xs) ((k2, v2) :: ys)
            = (k1 == k2 && JVal.beq v1 v2 && JVal.beqObj xs ys) from rfl]
      rw [Bool.and_eq_true, Bool.and_eq_true, JVal.beq_iff v1 v2, JVal.beqObj_iff xs ys]
      simp [and_assoc]
  | [], _ :: _ => by simp [JVal.beqObj]
  | _ :: _, [] => by simp [JVal.beqObj]

end

instance : DecidableEq JVal := fun a c =>
  decidable_of_iff (JVal.beq a c = true) (JVal.beq_iff a c)

/-- `dget` on a cons cell. -/
theorem dget_cons (p : String × JVal) (rest : Dict) (q : String) :
    dget (p :: rest) q = if p.1 = q then some p.2 else dget rest q := by
  by_cases h : p.1 = q <;> simp [dget, List.find?_cons, h]

/-- Updating key `k` then reading key `q` reads the written value exactly
when `q = k`. -/
theorem dget_dinsert (d : Dict) (k : String) (v : JVal) (q : String) :
    dget (dinsert d k v) q = if q = k then some v else dget d q := by
  induction d with
  | nil =>
    by_cases hq : q = k
    · simp [dinsert, dget_cons, hq]
    · have hk : ¬ k = q := fun h => hq h.symm
      simp [dinsert, dget_cons, hq, hk, dget, List.find?]
  | cons p rest ih =>
    by_cases hp : p.1 = k
    · simp only [dinsert, if_pos hp, dget_cons]
      by_cases hq : q = k
      · simp [hq]
      · have h1 : ¬ k = q := fun h => hq h.symm
        have h2 : ¬ p.1 = q := by rw [hp]; exact h1
        simp [h1, h2, hq]
    · simp only [dinsert, if_neg hp, dget_cons, ih]
      by_cases hpq : p.1 = q
      · have hq : ¬ q = k := fun h => hp (by rw [hpq, h])
        simp [hpq, hq]
      · simp [hpq]

/-- `lastLookup` on a cons: later pairs of the display win. -/
theorem lastLookup_cons (k : String) (v : JVal) (ps : List (String × JVal)) (q : String) :
    lastLookup ((k, v) :: ps) q
      = (match lastLookup ps q with
         | some w => some w
         | none => if q = k then some v else none) := by
  unfold lastLookup
  rw [List.reverse_cons, List.find?_append]
  cases h : List.find? (fun p => decide (p.1 = q)) ps.reverse with
  | none =>
    by_cases hq : q = k
    · subst hq
      simp [h, List.find?_cons, List.find?_nil]
    · have hk : ¬ k = q := fun hh => hq hh.symm
      simp [h, List.find?_cons, List.find?_nil, hk, hq]
  | some w => simp [h]

/-- `lastLookup` over an appended display: the right-hand pairs win. -/
theorem lastLookup_append (xs ys : List (String × JVal)) (q : String) :
    lastLookup (xs ++ ys) q
      = (match lastLookup ys q with
         | some w => some w
         | none => lastLookup xs q) := by
  unfold lastLookup
  rw [List.reverse_append, List.find?_append]
  cases h : List.find? (fun p => decide (p.1 = q)) ys.reverse with
  | none => simp [h]
  | some w => simp [h]

/-- Folding the dict-display insertions over a seed dict: a key bound by the
display reads the display's last binding, anything else falls through to the
seed. -/
theorem dget_foldl_dinsert (ps : List (String × JVal)) (d : Dict) (q : String) :
    dget (ps.foldl (fun d p => dinsert d p.1 p.2) d) q
      = (match lastLookup ps q with
         | some w => some w
         | none => dget d q) := by
  induction ps generalizing d with
  | nil => simp [lastLookup]
  | cons p ps ih =>
    obtain ⟨k, v⟩ := p
    rw [List.foldl_cons, ih, lastLookup_cons]
    cases h : lastLookup ps q with
    | none =>
      by_cases hq : q = k <;> simp [dget_dinsert, hq]
    | some w => simp

/-- What a Python dict display binds each key to: the last write wins. -/
theorem dget_dictLit (ps : List (String × JVal)) (q : String) :
    dget (dictLit ps) q = lastLookup ps q := by
  unfold dictLit
  rw [dget_foldl_dinsert]
  cases h : lastLookup ps q <;> simp [dget]

/-- `rfind` never returns below `-1`. -/
theorem pyRfind_lb : ∀ (l : List Char) (c : Char), -1 ≤ pyRfind l c
  | [], _ => by simp [pyRfind]
  | ch :: rest, c => by
    have ih := pyRfind_lb rest c
    simp only [pyRfind]
    by_cases h : pyRfind rest c ≥ 0
    · simp only [if_pos h]; omega
    · simp only [if_neg h]
      by_cases h2 : ch = c <;> simp [h2]

/-- `rfind` returns an index below the string length. -/
theorem pyRfind_lt : ∀ (l : List Char) (c : Char), pyRfind l c < (l.length : Int)
  | [], _ => by simp [pyRfind]
  | ch :: rest, c => by
    have ih := pyRfind_lt rest c
    simp only [pyRfind, List.length_cons]
    by_cases h : pyRfind rest c ≥ 0
    · simp only [if_pos h]; push_cast; omega
    · simp only [if_neg h]
      by_cases h2 : ch = c
      · simp only [if_pos h2]; push_cast; omega
      · simp only [if_neg h2]; push_cast; omega

/-- Slice bounds normalize into `[0, length]`. -/
theorem pySliceIdx_le (n : Nat) (i : Int) : pySliceIdx n i ≤ n := by
  unfold pySliceIdx
  by_cases h : i < 0
  · simp only [if_pos h]; omega
  · simp only [if_neg h]; omega

/-- A nonnegative slice bound normalizes to `min i n`. -/
theorem pySliceIdx_nonneg (n : Nat) (i : Int) (h : 0 ≤ i) :
    pySliceIdx n i = min i.toNat n := by
  unfold pySliceIdx
  rw [if_neg (by omega)]

/-- The length of a Python slice is the distance between its normalized
bounds. -/
theorem pySlice_length (l : List Char) (a b : Int) :
    (pySlice l a b).length = pySliceIdx l.length b - pySliceIdx l.length a := by
  unfold pySlice
  rw [List.length_drop, List.length_take]
  have := pySliceIdx_le l.length b
  omega

/-- With `overlap + 100 ≤ chunk_size` the window end chosen by lines 11–16 of
`chunking.py` lands in `(start + overlap, start + chunk_size]`: even a
sentence boundary can only pull the end back 100 characters, so the next
start `end - overlap` strictly advances. -/
theorem chunkEnd_bounds (text : List Char) (cs ov start : Int)
    (hov : 0 ≤ ov) (hcs : ov + 100 ≤ cs) (hstart : 0 ≤ start) :
    start + ov + 1 ≤ chunkEnd text cs start ∧ chunkEnd text cs start ≤ start + cs := by
  unfold chunkEnd
  by_cases he : start + cs < (text.length : Int)
  · simp only [if_pos he]
    have hbase : max start (start + cs - 100) = start + cs - 100 := by
      rw [max_eq_right]; omega
    rw [hbase]
    have hlen : ((pySlice text (start + cs - 100) (start + cs)).length : Int) ≤ 100 := by
      rw [pySlice_length]
      rw [pySliceIdx_nonneg _ _ (by omega), pySliceIdx_nonneg _ _ (by omega)]
      omega
    set lp := pySlice text (start + cs - 100) (start + cs) with hlp
    by_cases hs : max (pyRfind lp '.') (max (pyRfind lp '!') (pyRfind lp '?')) > -1
    · simp only [if_pos hs]
      have h1 : max (pyRfind lp '.') (max (pyRfind lp '!') (pyRfind lp '?')) < (lp.length : Int) :=
        max_lt (pyRfind_lt lp '.') (max_lt (pyRfind_lt lp '!') (pyRfind_lt lp '?'))
      omega
    · simp only [if_neg hs]
      omega
  · simp only [if_neg he]
    omega

/-- Core lemma for the chunker with `overlap ≥ 0` and
`chunk_size ≥ overlap + 100`: starting anywhere inside the text with fuel at
least the remaining length, the loop terminates and the windows it appends
cover every remaining character index. -/
theorem chunkLoop_cover (text : List Char) (cs ov : Int) (hov : 0 ≤ ov) (hcs : ov + 100 ≤ cs) :
    ∀ (fuel : Nat) (start : Int) (acc : List ((Nat × Nat) × List Char)),
      0 ≤ start → start < (text.length : Int) →
      ((text.length : Int) - start).toNat ≤ fuel →
      ∃ ws, chunkLoop text cs ov fuel start acc = some (acc ++ ws) ∧
        ∀ i : Nat, start ≤ (i : Int) → i < text.length →
          ∃ p ∈ ws, p.1.1 ≤ i ∧ i < p.1.2 := by
  intro fuel
  induction fuel with
  | zero =>
    intro start acc _ h1 h2
    exfalso; omega
  | succ m ih =>
    intro start acc h0 h1 h2
    obtain ⟨hel, heu⟩ := chunkEnd_bounds text cs ov start hov hcs h0
    have hstartIdx : pySliceIdx text.length start = start.toNat := by
      rw [pySliceIdx_nonneg _ _ h0]; omega
    have hendIdx : pySliceIdx text.length (chunkEnd text cs start) =
        min (chunkEnd text cs start).toNat text.length := by
      rw [pySliceIdx_nonneg _ _ (by omega)]
    simp only [chunkLoop, if_pos h1]
    by_cases hterm : chunkEnd text cs start - ov ≥ (text.length : Int)
    · rw [if_pos hterm]
      refine ⟨[((pySliceIdx text.length start, pySliceIdx text.length (chunkEnd text cs start)),
                pyStrip (pySlice text start (chunkEnd text cs start)))], rfl, ?_⟩
      intro i hi1 hi2
      refine ⟨_, List.mem_singleton_self _, ?_, ?_⟩
      · show pySliceIdx text.length start ≤ i
        rw [hstartIdx]; omega
      · show i < pySliceIdx text.length (chunkEnd text cs start)
        rw [hendIdx]; omega
    · rw [if_neg hterm]
      have hadv : start + 1 ≤ chunkEnd text cs start - ov := by omega
      obtain ⟨ws', heq, hcov⟩ := ih (chunkEnd text cs start - ov)
        (acc ++ [((pySliceIdx text.length start, pySliceIdx text.length (chunkEnd text cs start)),
                  pyStrip (pySlice text start (chunkEnd text cs start)))])
        (by omega) (by omega) (by omega)
      refine ⟨((pySliceIdx text.length start, pySliceIdx text.length (chunkEnd text cs start)),
               pyStrip (pySlice text start (chunkEnd text cs start))) :: ws', ?_, ?_⟩
      · rw [heq, List.append_assoc]; rfl
      · intro i hi1 hi2
        by_cases hie : (i : Int) < chunkEnd text cs start
        · refine ⟨_, List.mem_cons_self _ _, ?_, ?_⟩
          · show pySliceIdx text.length start ≤ i
            rw [hstartIdx]; omega
          · show i < pySliceIdx text.length (chunkEnd text cs start)
            rw [hendIdx]; omega
        · obtain ⟨p, hp, hpl, hpu⟩ := hcov i (by omega) hi2
          exact ⟨p, List.mem_cons_of_mem _ hp, hpl, hpu⟩

/-- With the library defaults `chunk_size=512, overlap=50`, fuel
`len(text) + 1` always suffices: `chunkTextD` is total and agrees with the
fuelled `chunk_text`. -/
theorem chunk_text_default_total (t : List Char) :
    chunk_text t 512 50 (t.length + 1) = some (chunkTextD t) := by
  by_cases h : (t.length : Int) ≤ 512
  · simp [chunk_text, chunkTextD, h]
  · obtain ⟨ws, heq, _⟩ := chunkLoop_cover t 512 50 (by norm_num) (by norm_num)
      (t.length + 1) 0 [] (le_refl 0) (by omega) (by omega)
    rw [List.nil_append] at heq
    simp [chunk_text, chunkTextD, h, heq]

/-- On `"aaa"` with `chunk_size = 2`, `overlap = 2` every loop iteration
recomputes the same window `[0, 2)` and sets `start = 2 - 2 = 0` again. -/
theorem chunkLoop_nonTermText_step (fuel : Nat) (acc : List ((Nat × Nat) × List Char)) :
    chunkLoop nonTermText 2 2 (fuel + 1) 0 acc
      = chunkLoop nonTermText 2 2 fuel 0 (acc ++ [((0, 2), ['a', 'a'])]) := rfl

/-- The loop on `"aaa"` with `chunk_size = 2`, `overlap = 2` exhausts any
amount of fuel. -/
theorem chunkLoop_nonTermText_none :
    ∀ (fuel : Nat) (acc : List ((Nat × Nat) × List Char)),
      chunkLoop nonTermText 2 2 fuel 0 acc = none := by
  intro fuel
  induction fuel with
  | zero => intro acc; rfl
  | succ m ih =>
    intro acc
    rw [chunkLoop_nonTermText_step, ih]

/-- C1: FALSE as stated — `chunk_text` has no termination guard.  On
`text = "aaa"`, `chunk_size = 2`, `overlap = 2` the next window start
`end - overlap` equals the current start on every iteration and the `while`
loop never terminates: no amount of fuel makes the embedded loop return.
The spec's claimed guard ("if the next start does not advance past the
current, force termination") does not exist in the source. -/
theorem C1_chunk_text_no_termination_guard :
    ∀ fuel : Nat, chunk_text nonTermText 2 2 fuel = none := by
  intro fuel
  have h3 : ¬ ((nonTermText.length : Int) ≤ 2) := by norm_num [nonTermText]
  unfold chunk_text
  rw [if_neg h3, chunkLoop_nonTermText_none fuel []]
  rfl

set_option maxRecDepth 40000 in
/-- C4 counterexample: with `text = gapText` (101 letters, 101 spaces, two
letters), `chunk_size = 101`, `overlap = 0` — parameters satisfying
`1 ≤ chunk_size` and `0 ≤ overlap < chunk_size` — the middle window
`[101, 202)` strips to whitespace and is discarded, so no produced chunk's
span contains index 101: coverage by produced chunks fails. -/
theorem C4_counterexample :
    chunkWindows gapText 101 0 300 = some gapWindows ∧
    ¬ (∀ i : Nat, i < gapText.length →
        ∃ p ∈ gapWindows, p.2 ≠ [] ∧ p.1.1 ≤ i ∧ i < p.1.2) := by
  constructor
  · decide
  · intro h
    obtain ⟨p, hp, hne, hl, hu⟩ := h 101 (by decide)
    have : ¬ (∃ p ∈ gapWindows, p.2 ≠ [] ∧ p.1.1 ≤ 101 ∧ 101 < p.1.2) := by decide
    exact this ⟨p, hp, hne, hl, hu⟩

/-- C4 amended: for `overlap ≥ 0` and `chunk_size ≥ overlap + 100` (every
step advances, so the loop terminates with fuel `len(text) + 1`), every
character index of the text lies in the span of at least one window the loop
examines.  An index can fail to lie in the span of a *produced* chunk only
when every window containing it strips to empty (whitespace-only) and is
discarded — as `C4_counterexample` shows. -/
theorem C4_window_coverage (text : List Char) (cs ov : Int)
    (hov : 0 ≤ ov) (hcs : ov + 100 ≤ cs) :
    ∃ ws, chunkWindows text cs ov (text.length + 1) = some ws ∧
      ∀ i : Nat, i < text.length → ∃ p ∈ ws, p.1.1 ≤ i ∧ i < p.1.2 := by
  by_cases h : (text.length : Int) ≤ cs
  · refine ⟨[((0, text.length), text)], by simp [chunkWindows, h], ?_⟩
    intro i hi
    exact ⟨_, List.mem_singleton_self _, Nat.zero_le _, hi⟩
  · obtain ⟨ws, heq, hcov⟩ := chunkLoop_cover text cs ov hov hcs (text.length + 1) 0 []
      (le_refl 0) (by omega) (by omega)
    rw [List.nil_append] at heq
    refine ⟨ws, by simp [chunkWindows, h, heq], ?_⟩
    intro i hi
    exact hcov i (by omega) hi

/-- Witness for `C4_window_coverage` at `gapText`, `chunk_size = 101`,
`overlap = 0`. -/
theorem C4_window_coverage_witness :
    ((0 : Int) ≤ 0 ∧ (0 : Int) + 100 ≤ 101) ∧
    (∃ ws, chunkWindows gapText 101 0 (gapText.length + 1) = some ws ∧
      ∀ i : Nat, i < gapText.length → ∃ p ∈ ws, p.1.1 ≤ i ∧ i < p.1.2) :=
  ⟨⟨by norm_num, by norm_num⟩, C4_window_coverage gapText 101 0 (by norm_num) (by norm_num)⟩

/-- Reading back the key just stored. -/
theorem get_json_set_self (c : Cache) (k : String) (v : JVal) (ttl : Int) :
    get_json (set_json c k v ttl) k = some v := by
  simp [get_json, set_json, List.find?_cons]

/-- The cache-scan pass of `generate_embeddings`: position `j` of `results`
holds the cached vector of text `j` (or `None`), and `uncached` is the
subsequence of cache-miss texts in input order. -/
theorem scanCacheGo_spec (cache : Cache) :
    ∀ (texts : List String) (i : Nat),
      ∃ idxs, scanCacheGo cache texts i
        = (texts.map (fun t => get_json cache (embKey t)),
           texts.filter (fun t => (get_json cache (embKey t)).isNone), idxs) := by
  intro texts
  induction texts with
  | nil => intro i; exact ⟨[], rfl⟩
  | cons t rest ih =>
    intro i
    obtain ⟨idxs, hrec⟩ := ih (i + 1)
    cases h : get_json cache (embKey t) with
    | some v =>
      refine ⟨idxs, ?_⟩
      simp [scanCacheGo, hrec, h, List.filter_cons]
    | none =>
      refine ⟨i :: idxs, ?_⟩
      simp [scanCacheGo, hrec, h, List.filter_cons]

/-- C2 counterexample: the claim says `generate_embeddings` "never raises an
exception, including on transport/network errors", but a transport error
from the `httpx` call propagates — `_request_embeddings` only handles the
non-200 case.  One uncached text and a transport failure raise. -/
theorem C2_counterexample :
    generate_embeddings transportErrOracle [] ["a"] = .error () := rfl

/-- C2 amended: when the batch remote call completes with a non-success
(non-200) response, `generate_embeddings` returns exactly the vectors of the
cache-hit input texts, in input order, without raising and without touching
the cache; a transport-level exception from the HTTP client, however,
propagates to the caller (as `C2_counterexample` shows). -/
theorem C2_http_failure_returns_cache_hits (oracle : EmbOracle) (cache : Cache)
    (texts : List String)
    (h : oracle (texts.filter (fun t => (get_json cache (embKey t)).isNone)) = .httpError) :
    ∃ log, generate_embeddings oracle cache texts
      = .ok (texts.filterMap (fun t => get_json cache (embKey t)), cache, log) := by
  obtain ⟨idxs, hscan⟩ := scanCacheGo_spec cache texts 0
  unfold generate_embeddings
  rw [hscan]
  by_cases he : (texts.filter (fun t => (get_json cache (embKey t)).isNone)).isEmpty
  · refine ⟨[], ?_⟩
    simp [he, List.filterMap_map, Function.comp]
  · refine ⟨[texts.filter (fun t => (get_json cache (embKey t)).isNone)], ?_⟩
    simp [he, request_embeddings, h, List.filterMap_map, Function.comp]

/-- Witness for `C2_http_failure_returns_cache_hits`: texts `["b", "c"]`
with `"b"` cached and the backend answering non-200. -/
theorem C2_http_failure_witness :
    httpErrOracle ((["b", "c"]).filter
        (fun t => (get_json cacheWithB (embKey t)).isNone)) = .httpError ∧
    ∃ log, generate_embeddings httpErrOracle cacheWithB ["b", "c"]
      = .ok ((["b", "c"]).filterMap (fun t => get_json cacheWithB (embKey t)), cacheWithB, log) :=
  ⟨rfl, C2_http_failure_returns_cache_hits httpErrOracle cacheWithB ["b", "c"] rfl⟩

/-- C8: with a functioning cache and a successful batch response, calling
`generate_embeddings(["a","a"])` and then `generate_embeddings(["a"])` issues
at most one remote call whose batch contains `"a"`: within the first call the
misses go out as one batch (`log1` has at most one entry), and the second
call is answered from the cache with no remote call at all (`log2 = []`). -/
theorem C8_at_most_one_remote_call_for_a (oracle : EmbOracle) (cache : Cache)
    (d : JVal) (ds : List JVal) (h : oracle ["a", "a"] = .ok (d :: ds)) :
    ∃ v1 c1 log1 v2 c2 log2,
      generate_embeddings oracle cache ["a", "a"] = .ok (v1, c1, log1) ∧
      generate_embeddings oracle c1 ["a"] = .ok (v2, c2, log2) ∧
      log1.length ≤ 1 ∧ log2 = [] ∧
      (log1 ++ log2).countP (fun batch => decide ("a" ∈ batch)) ≤ 1 := by
  cases hc : get_json cache (embKey "a") with
  | some v =>
    refine ⟨[v, v], cache, [], [v], cache, [], ?_, ?_, by norm_num, rfl, by simp⟩
    · simp [generate_embeddings, scanCacheGo, hc]
    · simp [generate_embeddings, scanCacheGo, hc]
  | none =>
    cases ds with
    | nil =>
      refine ⟨[unwrapVec d], set_json cache (embKey "a") (unwrapVec d) 3600, [["a", "a"]],
              [unwrapVec d], set_json cache (embKey "a") (unwrapVec d) 3600, [],
              ?_, ?_, by norm_num, rfl, by simp⟩
      · simp [generate_embeddings, scanCacheGo, hc, request_embeddings, h, applyBatch]
      · simp [generate_embeddings, scanCacheGo, get_json_set_self]
    | cons d2 ds2 =>
      refine ⟨[unwrapVec d, unwrapVec d2],
              set_json (set_json cache (embKey "a") (unwrapVec d) 3600) (embKey "a")
                (unwrapVec d2) 3600,
              [["a", "a"]],
              [unwrapVec d2],
              set_json (set_json cache (embKey "a") (unwrapVec d) 3600) (embKey "a")
                (unwrapVec d2) 3600,
              [], ?_, ?_, by norm_num, rfl, by simp⟩
      · simp [generate_embeddings, scanCacheGo, hc, request_embeddings, h, applyBatch]
      · simp [generate_embeddings, scanCacheGo, get_json_set_self]

/-- Witness for `C8_at_most_one_remote_call_for_a`: the always-succeeding
backend and an empty cache. -/
theorem C8_witness :
    okOracle ["a", "a"] = .ok (JVal.arr [JVal.n 1] :: [JVal.arr [JVal.n 1]]) ∧
    (∃ v1 c1 log1 v2 c2 log2,
      generate_embeddings okOracle [] ["a", "a"] = .ok (v1, c1, log1) ∧
      generate_embeddings okOracle c1 ["a"] = .ok (v2, c2, log2) ∧
      log1.length ≤ 1 ∧ log2 = [] ∧
      (log1 ++ log2).countP (fun batch => decide ("a" ∈ batch)) ≤ 1) :=
  ⟨rfl, C8_at_most_one_remote_call_for_a okOracle [] (JVal.arr [JVal.n 1])
    [JVal.arr [JVal.n 1]] rfl⟩

/-- C3 counterexample: the claim says explicit chunk fields win on key
collision, but in the `proc_chunk` dict display `**doc.metadata` comes AFTER
the explicit fields, so the metadata wins: ingesting a document with
metadata `{"id": "evil"}` produces a chunk record whose `id` is `"evil"`,
not the explicit `"d1-chunk-0"`. -/
theorem C3_counterexample :
    (ingest_documents okOracle [] "T" [evilDoc]).map
        (fun p => (ingestChunkBatch p.1).map (fun ch => dget ch "id"))
      = .ok [some (JVal.s "evil")] ∧ ("evil" : String) ≠ "d1-chunk-0" :=
  ⟨rfl, by decide⟩

/-- C3 amended: a chunk record built by `ingest_documents` is the shallow
merge of the inherited document metadata OVER the explicit chunk fields
(`id`, `text`, `content`, `document_id`, `chunk_index`, `total_chunks`) —
the metadata wins on every key collision with them — while `indexed_at`,
written after the merge, overrides everything. -/
theorem C3_amended_metadata_wins (docId : String) (meta : List (String × JVal)) (i : Nat)
    (content : String) (total : Nat) (ts : String) (key : String) :
    dget (procChunk docId meta i content total ts) key
      = if key = "indexed_at" then some (.s ts)
        else (match lastLookup meta key with
              | some v => some v
              | none => lastLookup (explicitChunkFields docId i content total) key) := by
  unfold procChunk
  rw [dget_dictLit, lastLookup_append, lastLookup_append]
  by_cases hk : key = "indexed_at"
  · subst hk
    simp [lastLookup, List.find?]
  · have hone : lastLookup [("indexed_at", JVal.s ts)] key = none := by
      have : ¬ ("indexed_at" = key) := fun h => hk h.symm
      simp [lastLookup, List.find?, this]
    rw [hone]
    simp only [if_neg hk]

/-- Reading a position of a `zipWith` recovers the two zipped entries. -/
theorem zipWith_get?_some {α β γ : Type _} (f : α → β → γ) :
    ∀ (xs : List α) (ys : List β) (i : Nat) (z : γ),
      (List.zipWith f xs ys).get? i = some z →
      ∃ x y, xs.get? i = some x ∧ ys.get? i = some y ∧ z = f x y := by
  intro xs
  induction xs with
  | nil => intro ys i z h; simp at h
  | cons x xs ih =>
    intro ys i z h
    cases ys with
    | nil => simp at h
    | cons y ys =>
      cases i with
      | zero =>
        refine ⟨x, y, rfl, rfl, ?_⟩
        simp [List.zipWith] at h
        exact h.symm
      | succ n =>
        simp only [List.zipWith, List.get?] at h ⊢
        exact ih ys n z h

/-- `collectDocs` produces one document record per document and equally many
chunk records and chunk texts. -/
theorem collectDocs_lengths (ts : String) :
    ∀ docs : List DocIn,
      (collectDocs ts docs).1.length = docs.length ∧
      (collectDocs ts docs).2.1.length = (collectDocs ts docs).2.2.length := by
  intro docs
  induction docs with
  | nil => exact ⟨rfl, rfl⟩
  | cons doc rest ih =>
    obtain ⟨h1, h2⟩ := ih
    rcases hrec : collectDocs ts rest with ⟨pds, pcs, ats⟩
    rw [hrec] at h1 h2
    simp only [collectDocs, hrec]
    refine ⟨by simpa using h1, ?_⟩
    simp only at h2
    simp [List.length_append, List.length_map, List.enum_length, h2]

/-- C9: once `generate_embeddings` returns, `ingest_documents` always
commits: when the vector count matches the chunk count each chunk record of
the submitted batch carries its vector, in order, under
`_vectors.default`; on any mismatch every chunk record carries a null
vector; in both cases the document batch and the counts are returned and the
ingest succeeds. -/
theorem C9_ingest_vector_attach (oracle : EmbOracle) (cache : Cache) (ts : String)
    (docs : List DocIn) (vecs : List JVal) (c1 : Cache) (log : List (List String))
    (h : generate_embeddings oracle cache (collectDocs ts docs).2.2 = .ok (vecs, c1, log)) :
    ∃ r, ingest_documents oracle cache ts docs = .ok (r, c1) ∧
      r.indexed = docs.length ∧
      r.embeddings_generated = vecs.length ∧
      r.chunks_created = (collectDocs ts docs).2.1.length ∧
      r.document_task = (collectDocs ts docs).1 ∧
      (ingestChunkBatch r).length = r.chunks_created ∧
      (vecs.length = (collectDocs ts docs).2.1.length →
        ∀ i ch v, (ingestChunkBatch r).get? i = some ch → vecs.get? i = some v →
          dget ch "_vectors" = some (.obj [("default", v)])) ∧
      (vecs.length ≠ (collectDocs ts docs).2.1.length →
        ∀ ch ∈ ingestChunkBatch r, dget ch "_vectors" = some (.obj [("default", JVal.null)])) := by
  rcases hcd : collectDocs ts docs with ⟨pd, pc, ats⟩
  have h' : generate_embeddings oracle cache ats = .ok (vecs, c1, log) := by
    rw [hcd] at h; exact h
  obtain ⟨hl1, hl2⟩ := collectDocs_lengths ts docs
  rw [hcd] at hl1 hl2
  simp only at hl1 hl2
  by_cases hv : vecs.length = ats.length
  · set pcv := pc.zipWith (fun ch v => dinsert ch "_vectors" (.obj [("default", v)])) vecs
      with hpcv
    have hing : ingest_documents oracle cache ts docs
        = .ok ({ indexed := pd.length, chunks_created := pc.length,
                 embeddings_generated := vecs.length, document_task := pd,
                 chunk_task := if pcv.isEmpty then none else some pcv }, c1) := by
      simp only [ingest_documents, hcd, h', hv, if_pos, hpcv]
    have hbatch : ingestChunkBatch
        { indexed := pd.length, chunks_created := pc.length,
          embeddings_generated := vecs.length, document_task := pd,
          chunk_task := if pcv.isEmpty then none else some pcv } = pcv := by
      by_cases hpc : pcv.isEmpty
      · rw [List.isEmpty_iff] at hpc
        simp [ingestChunkBatch, hpc]
      · simp [ingestChunkBatch, hpc]
    refine ⟨_, hing, hl1, rfl, rfl, rfl, ?_, ?_, ?_⟩
    · rw [hbatch, hpcv, List.length_zipWith]
      show min pc.length vecs.length = pc.length
      omega
    · intro _ i ch v hch hvv
      rw [hbatch, hpcv] at hch
      obtain ⟨x, y, hx, hy, hz⟩ := zipWith_get?_some _ pc vecs i ch hch
      rw [hvv] at hy
      obtain rfl : y = v := (Option.some.inj hy).symm
      rw [hz, dget_dinsert, if_pos rfl]
    · intro hne
      have hne2 : vecs.length ≠ pc.length := hne
      exact absurd (by omega : vecs.length = pc.length) hne2
  · set pcv := pc.map (fun ch => dinsert ch "_vectors" (.obj [("default", JVal.null)]))
      with hpcv
    have hing : ingest_documents oracle cache ts docs
        = .ok ({ indexed := pd.length, chunks_created := pc.length,
                 embeddings_generated := vecs.length, document_task := pd,
                 chunk_task := if pcv.isEmpty then none else some pcv }, c1) := by
      simp only [ingest_documents, hcd, h', hv, if_neg, if_false, hpcv]
    have hbatch : ingestChunkBatch
        { indexed := pd.length, chunks_created := pc.length,
          embeddings_generated := vecs.length, document_task := pd,
          chunk_task := if pcv.isEmpty then none else some pcv } = pcv := by
      by_cases hpc : pcv.isEmpty
      · rw [List.isEmpty_iff] at hpc
        simp [ingestChunkBatch, hpc]
      · simp [ingestChunkBatch, hpc]
    refine ⟨_, hing, hl1, rfl, rfl, rfl, ?_, ?_, ?_⟩
    · rw [hbatch, hpcv, List.length_map]
    · intro hveq
      have hveq2 : vecs.length = pc.length := hveq
      exact absurd (by omega : vecs.length = ats.length) hv
    · intro _ ch hch
      rw [hbatch, hpcv] at hch
      obtain ⟨x, _, rfl⟩ := List.mem_map.mp hch
      rw [dget_dinsert, if_pos rfl]

/-- Witness for `C9_ingest_vector_attach`: one three-character document, the
always-succeeding backend, empty cache. -/
theorem C9_witness :
    generate_embeddings okOracle []
        (collectDocs "T" [DocIn.mk "d2" ['h', 'e', 'y'] [("k1", JVal.s "v")]]).2.2
      = .ok ([JVal.arr [JVal.n 1]], [("embedding:hey", JVal.arr [JVal.n 1])], [["hey"]]) ∧
    (∃ r, ingest_documents okOracle [] "T" [DocIn.mk "d2" ['h', 'e', 'y'] [("k1", JVal.s "v")]]
        = .ok (r, [("embedding:hey", JVal.arr [JVal.n 1])]) ∧
      r.indexed = [DocIn.mk "d2" ['h', 'e', 'y'] [("k1", JVal.s "v")]].length ∧
      r.embeddings_generated = [JVal.arr [JVal.n 1]].length ∧
      r.chunks_created
        = (collectDocs "T" [DocIn.mk "d2" ['h', 'e', 'y'] [("k1", JVal.s "v")]]).2.1.length ∧
      r.document_task = (collectDocs "T" [DocIn.mk "d2" ['h', 'e', 'y'] [("k1", JVal.s "v")]]).1 ∧
      (ingestChunkBatch r).length = r.chunks_created ∧
      ([JVal.arr [JVal.n 1]].length
          = (collectDocs "T" [DocIn.mk "d2" ['h', 'e', 'y'] [("k1", JVal.s "v")]]).2.1.length →
        ∀ i ch v, (ingestChunkBatch r).get? i = some ch →
          [JVal.arr [JVal.n 1]].get? i = some v →
          dget ch "_vectors" = some (.obj [("default", v)])) ∧
      ([JVal.arr [JVal.n 1]].length
          ≠ (collectDocs "T" [DocIn.mk "d2" ['h', 'e', 'y'] [("k1", JVal.s "v")]]).2.1.length →
        ∀ ch ∈ ingestChunkBatch r, dget ch "_vectors" = some (.obj [("default", JVal.null)]))) :=
  ⟨rfl, C9_ingest_vector_attach okOracle [] "T"
    [DocIn.mk "d2" ['h', 'e', 'y'] [("k1", JVal.s "v")]]
    [JVal.arr [JVal.n 1]] [("embedding:hey", JVal.arr [JVal.n 1])] [["hey"]] rfl⟩

/-- `JVal.beq` as a decide. -/
theorem JVal.beq_eq_decide (x y : JVal) : JVal.beq x y = decide (x = y) := by
  by_cases h : x = y
  · rw [(JVal.beq_iff x y).mpr h, decide_eq_true h]
  · rw [decide_eq_false h, Bool.eq_false_iff]
    exact fun hb => h ((JVal.beq_iff x y).mp hb)

/-- `pdGet` on a cons cell. -/
theorem pdGet_cons (p : JVal × Nat) (rest : List (JVal × Nat)) (d : JVal) :
    pdGet (p :: rest) d = if p.1 = d then some p.2 else pdGet rest d := by
  by_cases h : p.1 = d <;> simp [pdGet, List.find?_cons, JVal.beq_eq_decide, h]

/-- Updating the counter of bucket `b` then reading bucket `d`. -/
theorem pdGet_pdSet (pd : List (JVal × Nat)) (b : JVal) (v : Nat) (d : JVal) :
    pdGet (pdSet pd b v) d = if b = d then some v else pdGet pd d := by
  induction pd with
  | nil =>
    by_cases hd : b = d <;>
      simp [pdSet, pdGet_cons, pdGet, List.find?, JVal.beq_eq_decide, hd]
  | cons p rest ih =>
    by_cases hp : p.1 = b
    · rw [show pdSet (p :: rest) b v = (b, v) :: rest from by
            simp [pdSet, JVal.beq_eq_decide, hp]]
      rw [pdGet_cons, pdGet_cons]
      by_cases hd : b = d
      · simp [hd]
      · have hp2 : ¬ (p.1 = d) := fun h2 => hd (hp.symm.trans h2)
        simp [hd, hp2]
    · rw [show pdSet (p :: rest) b v = p :: pdSet rest b v from by
            simp [pdSet, JVal.beq_eq_decide, hp]]
      rw [pdGet_cons, pdGet_cons]
      by_cases hpd : p.1 = d
      · have hd : ¬ (b = d) := fun h2 => hp (hpd.trans h2.symm)
        simp [hpd, hd]
      · simp [hpd, ih]

/-- One step of the `_select_chunks` loop, with the branch on the bucket
count pushed outward. -/
theorem selectGo_cons (k : Int) (h : Dict) (rest sel : List Dict) (pd : List (JVal × Nat)) :
    selectGo k (h :: rest) sel pd
      = (if (pdGet pd (bucketOf h)).getD 0 < 2 then
           (if ((sel ++ [h]).length : Int) ≥ k then sel ++ [h]
            else selectGo k rest (sel ++ [h])
              (pdSet pd (bucketOf h) ((pdGet pd (bucketOf h)).getD 0 + 1)))
         else
           (if ((sel.length : Int)) ≥ k then sel
            else selectGo k rest sel (pdSet pd (bucketOf h) ((pdGet pd (bucketOf h)).getD 0)))) := by
  by_cases hc : (pdGet pd (bucketOf h)).getD 0 < 2 <;> simp [selectGo, hc]

/-- `_select_chunks` only ever appends: the result extends the accumulator
with a subsequence of the remaining hits (so input order is preserved). -/
theorem selectGo_sublist (k : Int) :
    ∀ (hits sel : List Dict) (pd : List (JVal × Nat)),
      ∃ extra, selectGo k hits sel pd = sel ++ extra ∧ extra.Sublist hits := by
  intro hits
  induction hits with
  | nil => intro sel pd; exact ⟨[], by simp [selectGo], List.nil_sublist []⟩
  | cons h rest ih =>
    intro sel pd
    rw [selectGo_cons]
    by_cases hc : (pdGet pd (bucketOf h)).getD 0 < 2
    · rw [if_pos hc]
      by_cases hk : (((sel ++ [h]).length : Int) ≥ k)
      · refine ⟨[h], by rw [if_pos hk], ?_⟩
        simp
      · obtain ⟨extra, heq, hsub⟩ := ih (sel ++ [h])
          (pdSet pd (bucketOf h) ((pdGet pd (bucketOf h)).getD 0 + 1))
        refine ⟨h :: extra, ?_, List.Sublist.cons₂ h hsub⟩
        rw [if_neg hk, heq, List.append_assoc]
        rfl
    · rw [if_neg hc]
      by_cases hk : ((sel.length : Int) ≥ k)
      · exact ⟨[], by rw [if_pos hk]; simp, List.nil_sublist _⟩
      · obtain ⟨extra, heq, hsub⟩ := ih sel
          (pdSet pd (bucketOf h) ((pdGet pd (bucketOf h)).getD 0))
        exact ⟨extra, by rw [if_neg hk, heq], List.Sublist.cons h hsub⟩

/-- Bucket-count invariant of the `_select_chunks` loop: if the selected
accumulator holds no more entries of bucket `d` than the counter records,
and the counter is at most 2, then the final selection holds at most 2
entries of bucket `d`. -/
theorem selectGo_bucket_le (k : Int) (d : JVal) :
    ∀ (hits sel : List Dict) (pd : List (JVal × Nat)),
      sel.countP (fun x => decide (bucketOf x = d)) ≤ (pdGet pd d).getD 0 →
      (pdGet pd d).getD 0 ≤ 2 →
      (selectGo k hits sel pd).countP (fun x => decide (bucketOf x = d)) ≤ 2 := by
  intro hits
  induction hits with
  | nil =>
    intro sel pd h1 h2
    simpa [selectGo] using le_trans h1 h2
  | cons h rest ih =>
    intro sel pd h1 h2
    rw [selectGo_cons]
    have hone : (sel ++ [h]).countP (fun x => decide (bucketOf x = d))
        = sel.countP (fun x => decide (bucketOf x = d))
          + (if bucketOf h = d then 1 else 0) := by
      by_cases hbd : bucketOf h = d <;>
        simp [List.countP_append, List.countP_cons, hbd]
    by_cases hc : (pdGet pd (bucketOf h)).getD 0 < 2
    · rw [if_pos hc]
      have hpd' := pdGet_pdSet pd (bucketOf h) ((pdGet pd (bucketOf h)).getD 0 + 1) d
      by_cases hbd : bucketOf h = d
      · subst hbd
        rw [if_pos rfl] at hpd'
        by_cases hk : (((sel ++ [h]).length : Int) ≥ k)
        · rw [if_pos hk, hone, if_pos rfl]
          omega
        · rw [if_neg hk]
          refine ih (sel ++ [h]) _ ?_ ?_
          · rw [hone, if_pos rfl, hpd']
            simp only [Option.getD_some]
            omega
          · rw [hpd']
            simp only [Option.getD_some]
            omega
      · rw [if_neg hbd] at hpd'
        by_cases hk : (((sel ++ [h]).length : Int) ≥ k)
        · rw [if_pos hk, hone, if_neg hbd]
          omega
        · rw [if_neg hk]
          refine ih (sel ++ [h]) _ ?_ ?_
          · rw [hone, if_neg hbd, hpd']
            omega
          · rw [hpd']
            exact h2
    · rw [if_neg hc]
      have hpd' := pdGet_pdSet pd (bucketOf h) ((pdGet pd (bucketOf h)).getD 0) d
      have hval : (pdGet (pdSet pd (bucketOf h) ((pdGet pd (bucketOf h)).getD 0)) d).getD 0
          = (pdGet pd d).getD 0 := by
        by_cases hbd : bucketOf h = d
        · rw [hpd', if_pos hbd, hbd]
          simp
        · rw [hpd', if_neg hbd]
      by_cases hk : ((sel.length : Int) ≥ k)
      · rw [if_pos hk]
        exact le_trans h1 h2
      · rw [if_neg hk]
        refine ih sel _ ?_ ?_
        · rw [hval]; exact h1
        · rw [hval]; exact h2

/-- Selected count never exceeds `k` once `k ≥ 1` (append happens only while
the running length is below `k`, and the loop stops as soon as it reaches
`k`). -/
theorem selectGo_length_le (k : Int) :
    ∀ (hits sel : List Dict) (pd : List (JVal × Nat)),
      (sel.length : Int) < k → ((selectGo k hits sel pd).length : Int) ≤ k := by
  intro hits
  induction hits with
  | nil =>
    intro sel pd hlen
    simp only [selectGo]
    omega
  | cons h rest ih =>
    intro sel pd hlen
    rw [selectGo_cons]
    by_cases hc : (pdGet pd (bucketOf h)).getD 0 < 2
    · rw [if_pos hc]
      by_cases hk : (((sel ++ [h]).length : Int) ≥ k)
      · rw [if_pos hk]
        have hlen2 : ((sel ++ [h]).length : Int) = (sel.length : Int) + 1 := by
          push_cast [List.length_append]
          simp
        omega
      · rw [if_neg hk]
        exact ih _ _ (by omega)
    · rw [if_neg hc]
      by_cases hk : ((sel.length : Int) ≥ k)
      · rw [if_pos hk]
        omega
      · rw [if_neg hk]
        exact ih _ _ hlen

/-- C5 counterexample: with `k = 0` the claim's "returns ≤ k entries" fails —
the length check runs only after a hit has been appended, so a nonempty hit
list yields one selected entry even though `k = 0`. -/
theorem C5_counterexample :
    ¬ (((select_chunks [soloHit] 0).length : Int) ≤ 0) := by decide

/-- C5 amended: for every hit list and every `k ≥ 1` (the API layer rejects
`k ≤ 0` before the selector runs; for `k ≤ 0` the selector can still return
one entry), `_select_chunks` returns at most `k` entries, keeps at most 2
entries carrying any one `document_id` value, and returns a subsequence of
the input (input relative order preserved). -/
theorem C5_select_invariants (hits : List Dict) (k : Int) (hk : 1 ≤ k) :
    ((select_chunks hits k).length : Int) ≤ k ∧
    (∀ d : JVal, (select_chunks hits k).countP
        (fun x => decide (dget x "document_id" = some d)) ≤ 2) ∧
    (select_chunks hits k).Sublist hits := by
  refine ⟨?_, ?_, ?_⟩
  · exact selectGo_length_le k hits [] [] (by simp; omega)
  · intro d
    have hb := selectGo_bucket_le k d hits [] [] (by simp [pdGet]) (by simp [pdGet])
    refine le_trans (List.countP_mono_left ?_) hb
    intro x _ hx
    simp only [decide_eq_true_eq] at hx ⊢
    simp [bucketOf, hx]
  · obtain ⟨extra, heq, hsub⟩ := selectGo_sublist k hits [] []
    rw [select_chunks, heq]
    simpa using hsub

/-- Witness for `C5_select_invariants` at one hit and `k = 1`. -/
theorem C5_select_invariants_witness :
    (1 : Int) ≤ 1 ∧
    (((select_chunks [soloHit] 1).length : Int) ≤ 1 ∧
     (∀ d : JVal, (select_chunks [soloHit] 1).countP
         (fun x => decide (dget x "document_id" = some d)) ≤ 2) ∧
     (select_chunks [soloHit] 1).Sublist [soloHit]) :=
  ⟨by norm_num, C5_select_invariants [soloHit] 1 (by norm_num)⟩

/-- C10: every hit lacking a `document_id` key is counted under the single
shared bucket `"unknown"`, so across the whole input at most 2 hits without
a `document_id` are ever selected, for every hit list and every `k`. -/
theorem C10_missing_document_id_capped (hits : List Dict) (k : Int) :
    (select_chunks hits k).countP
      (fun x => decide (dget x "document_id" = none)) ≤ 2 := by
  have hb := selectGo_bucket_le k (JVal.s "unknown") hits [] []
    (by simp [pdGet]) (by simp [pdGet])
  refine le_trans (List.countP_mono_left ?_) hb
  intro x _ hx
  simp only [decide_eq_true_eq] at hx ⊢
  simp [bucketOf, hx]

/-- The result dict of `rag_search` spelled out (the display has five fixed
distinct keys). -/
theorem ragResultDict_eq (answer : String) (chunks : List Dict) (total : Int) (method : String) :
    ragResultDict answer chunks total method
      = [("answer", .s answer), ("chunks", .arr (chunks.map .obj)),
         ("total_chunks_found", .n total), ("cached", .b false),
         ("search_method", .s method)] := rfl

/-- `{**result, "cached": False}` is `result` itself: the payload is stored
with `cached = false`. -/
theorem ragResultDict_cached_false (answer : String) (chunks : List Dict) (total : Int)
    (method : String) :
    dinsert (ragResultDict answer chunks total method) "cached" (.b false)
      = ragResultDict answer chunks total method := rfl

/-- Reading the freshest binding of a key. -/
theorem get_json_cons_self (c : Cache) (k : String) (v : JVal) :
    get_json ((k, v) :: c) k = some v := by
  simp [get_json, List.find?_cons]

/-- Every branch of the retrieval phase against an all-empty store yields
zero hits without raising, with the Redis state left as the embedding call
left it. -/
theorem ragAttempt_empty_store (q : String) (k : Int) (ue : Bool) (w : World)
    (hs : ∀ sq, w.storeOracle sq = .ok ⟨[]⟩) :
    ∃ m c1, ragAttempt w q k ue = .ok (⟨[]⟩, m, c1) := by
  unfold ragAttempt
  by_cases hue : ue
  · simp only [hue, if_true]
    cases hg : generate_embeddings w.embedOracle w.cache [q] with
    | error e => exact ⟨"text", w.cache, by rw [hs]; rfl⟩
    | ok trip =>
      rcases trip with ⟨embs, c1, lg⟩
      cases embs with
      | nil => exact ⟨"text", c1, by rw [hs]; rfl⟩
      | cons qv rest => exact ⟨"hybrid", c1, by simp only [hs]⟩
  · simp only [hue, if_false]
    exact ⟨"text", w.cache, by rw [hs]; rfl⟩

/-- C6: against an empty store (every query returns zero hits) and with no
cached payload under the computed key, `rag_search` returns
`chunks = []`, `total_chunks_found = 0`, the fixed fallback answer and
`cached = false`; it stores that payload (with `cached` stored as `false`)
under the key, and a second identical call returns the stored payload with
`cached = true` and byte-identical `answer` and `chunks`, leaving the world
unchanged. -/
theorem C6_empty_store_cached_replay (q : String) (k : Int) (ue : Bool) (w : World)
    (hs : ∀ sq, w.storeOracle sq = .ok ⟨[]⟩)
    (hc : get_json w.cache (ragKey q k ue) = none) :
    ∃ r w1, rag_search w q k ue = .ok (r, w1) ∧
      dget r "answer" = some (.s "I couldn't find any relevant chunks to answer your question.") ∧
      dget r "chunks" = some (.arr []) ∧
      dget r "total_chunks_found" = some (.n 0) ∧
      dget r "cached" = some (.b false) ∧
      get_json w1.cache (ragKey q k ue) = some (.obj r) ∧
      rag_search w1 q k ue = .ok (dinsert r "cached" (.b true), w1) ∧
      dget (dinsert r "cached" (.b true)) "cached" = some (.b true) ∧
      dget (dinsert r "cached" (.b true)) "answer" = dget r "answer" ∧
      dget (dinsert r "cached" (.b true)) "chunks" = dget r "chunks" := by
  obtain ⟨m, c1, hatt⟩ := ragAttempt_empty_store q k ue w hs
  set R := ragResultDict "I couldn't find any relevant chunks to answer your question." [] 0 m
    with hR
  have hrun : rag_search w q k ue = ragSearchFresh w q k ue (ragKey q k ue) := by
    simp only [rag_search, hc]
  have hfresh : ragSearchFresh w q k ue (ragKey q k ue)
      = .ok (R, { w with cache := set_json c1 (ragKey q k ue) (JVal.obj R) 600 }) := by
    simp only [ragSearchFresh, hatt]
    rfl
  refine ⟨R, _, hrun.trans hfresh, rfl, rfl, rfl, rfl, ?_, ?_, rfl, rfl, rfl⟩
  · exact get_json_cons_self c1 (ragKey q k ue) (JVal.obj R)
  · have hc2 : get_json (set_json c1 (ragKey q k ue) (JVal.obj R) 600) (ragKey q k ue)
        = some (JVal.obj R) := get_json_cons_self c1 (ragKey q k ue) (JVal.obj R)
    simp only [rag_search, hc2]
    rfl

/-- Witness for `C6_empty_store_cached_replay`: the empty world (empty cache,
empty store), query `"q"`, `k = 5`, `use_embeddings = true`. -/
theorem C6_witness :
    (∀ sq, emptyWorld.storeOracle sq = .ok ⟨[]⟩) ∧
    get_json emptyWorld.cache (ragKey "q" 5 true) = none ∧
    (∃ r w1, rag_search emptyWorld "q" 5 true = .ok (r, w1) ∧
      dget r "answer" = some (.s "I couldn't find any relevant chunks to answer your question.") ∧
      dget r "chunks" = some (.arr []) ∧
      dget r "total_chunks_found" = some (.n 0) ∧
      dget r "cached" = some (.b false) ∧
      get_json w1.cache (ragKey "q" 5 true) = some (.obj r) ∧
      rag_search w1 "q" 5 true = .ok (dinsert r "cached" (.b true), w1) ∧
      dget (dinsert r "cached" (.b true)) "cached" = some (.b true) ∧
      dget (dinsert r "cached" (.b true)) "answer" = dget r "answer" ∧
      dget (dinsert r "cached" (.b true)) "chunks" = dget r "chunks") :=
  ⟨fun _ => rfl, rfl,
   C6_empty_store_cached_replay "q" 5 true emptyWorld (fun _ => rfl) rfl⟩

/-- C7: with `use_embeddings = true`, a cold cache for both the payload key
and the query's embedding key, a failing embedding backend (non-200 response
or raised transport exception) and a working lexical store, `rag_search`
does not raise, falls back to the lexical-only query, and returns a result
whose `search_method` is `"text"`. -/
theorem C7_embedding_failure_text_fallback (q : String) (k : Int) (w : World) (res : SearchRes)
    (hc : get_json w.cache (ragKey q k true) = none)
    (he : get_json w.cache (embKey q) = none)
    (hf : w.embedOracle [q] = .httpError ∨ w.embedOracle [q] = .transportErr)
    (ht : w.storeOracle (.textQ q (k * 2)) = .ok res) :
    ∃ r w1, rag_search w q k true = .ok (r, w1) ∧
      dget r "search_method" = some (.s "text") := by
  have hscan : scanCacheGo w.cache [q] 0 = ([none], [q], [0]) := by
    simp [scanCacheGo, he]
  have hatt : ragAttempt w q k true = .ok (res, "text", w.cache) := by
    rcases hf with hf | hf
    · have hgen : generate_embeddings w.embedOracle w.cache [q] = .ok ([], w.cache, [[q]]) := by
        simp [generate_embeddings, hscan, request_embeddings, hf]
      simp only [ragAttempt, if_true, hgen]
      rw [ht]
      rfl
    · have hgen : generate_embeddings w.embedOracle w.cache [q] = .error () := by
        simp [generate_embeddings, hscan, request_embeddings, hf]
      simp only [ragAttempt, if_true, hgen]
      rw [ht]
      rfl
  have hrun : rag_search w q k true = ragSearchFresh w q k true (ragKey q k true) := by
    simp only [rag_search, hc]
  rw [hrun]
  simp only [ragSearchFresh, hatt]
  cases hh : res.hits.isEmpty with
  | true => exact ⟨_, _, rfl, rfl⟩
  | false =>
    rcases hbc : buildChunks (select_chunks res.hits k) 0 with ⟨cps, chs⟩
    cases hch : chs.isEmpty with
    | true => exact ⟨_, _, rfl, rfl⟩
    | false => exact ⟨_, _, rfl, rfl⟩

/-- Witness for `C7_embedding_failure_text_fallback`: empty cache, an
embedding backend whose round trip raises, a store with one fixed hit. -/
theorem C7_witness :
    get_json failEmbWorld.cache (ragKey "q" 5 true) = none ∧
    get_json failEmbWorld.cache (embKey "q") = none ∧
    (failEmbWorld.embedOracle ["q"] = .httpError ∨
      failEmbWorld.embedOracle ["q"] = .transportErr) ∧
    failEmbWorld.storeOracle (.textQ "q" (5 * 2))
      = .ok ⟨[[("id", JVal.s "c1"), ("document_id", JVal.s "d1"),
              ("content", JVal.s "hello")]]⟩ ∧
    (∃ r w1, rag_search failEmbWorld "q" 5 true = .ok (r, w1) ∧
      dget r "search_method" = some (.s "text")) :=
  ⟨rfl, rfl, Or.inr rfl, rfl,
   C7_embedding_failure_text_fallback "q" 5 failEmbWorld
     ⟨[[("id", JVal.s "c1"), ("document_id", JVal.s "d1"), ("content", JVal.s "hello")]]⟩
     rfl rfl (Or.inr rfl) rfl⟩
